import Mathlib

/-!
# Verification of the TypeState finite state machine (src/fsm.ts)

Shallow embedding of the TypeScript classes `Transitions<T>`,
`TransitionFunction<T>` and `FiniteStateMachine<T>`.

Modelling choices:
* States are a type `T` with decidable equality (TS `===`) and a `ToString`
  instance (TS `state.toString()`, used as the key of the callback registries).
* A callback registry `{[key: string]: ...[]}` is a partial map from string
  keys to ordered callback lists, modelled as `String → Option (List _)`
  (a missing key is `none`; the source initialises missing keys to `[]`).
* Callbacks are opaque to the engine: a guard callback is modelled by an
  identifier together with the boolean it returns, an on-commit callback by
  its identifier alone.  Every invocation of a callback by the engine is
  recorded in an event trace, so that "callback X fires" is observable.
* `go`, which in TS mutates `this` and may throw, returns the machine after
  the call, the trace of callback invocations, and `some errorMessage`
  exactly when the TS code throws (in which case the machine is returned
  unchanged and the trace is empty, since the throw precedes everything else).
-/

/-- An event recorded whenever the engine invokes a user callback. -/
inductive Event where
  | exitGuard (id : Nat)
  | enterGuard (id : Nat)
  | onCommit (id : Nat)
deriving DecidableEq, Repr

/-- `true` exactly on `Event.onCommit` events. -/
def Event.isOnCommit : Event → Bool
  | .onCommit _ => true
  | _ => false

/-- A guard callback `() => boolean`: an identifier plus the boolean it returns. -/
structure GuardCb where
  id : Nat
  ret : Bool
deriving DecidableEq, Repr

/-- An on-commit callback `() => any`: identified by `id`, return value unused. -/
structure OnCb where
  id : Nat
deriving DecidableEq, Repr

/-- A callback registry `{[key: string]: α[]}` of the TS source. -/
abbrev Registry (α : Type) : Type := String → Option (List α)

/-- `if (!reg[key]) { reg[key] = []; }` of the TS source. -/
def Registry.ensure {α : Type} (reg : Registry α) (key : String) : Registry α :=
  match reg key with
  | none => fun s => if s = key then some [] else reg s
  | some _ => reg

/-- `if (!reg[key]) { reg[key] = []; } reg[key].push(cb);` of the TS source. -/
def Registry.push {α : Type} (reg : Registry α) (key : String) (cb : α) : Registry α :=
  let reg1 := reg.ensure key
  fun s => if s = key then some (((reg1 key).getD []) ++ [cb]) else reg1 s

/-- The TS class `TransitionFunction<T>` (the back reference to the owning
machine is dropped: it is never read). -/
structure TransitionFunction (T : Type) where
  src : T
  dst : T
deriving DecidableEq, Repr

/-- The TS builder class `Transitions<T>`: the collected from- and to-states.
The live back reference `fsm` to the owning engine is modelled by passing the
engine explicitly to `Transitions.to`. -/
structure Transitions (T : Type) where
  fromStates : List T
  toStates : List T
deriving DecidableEq, Repr

/-- The TS class `FiniteStateMachine<T>`. -/
structure FiniteStateMachine (T : Type) where
  currentState : T
  startState : T
  transitionFunctions : List (TransitionFunction T)
  onCallbacks : Registry OnCb
  exitCallbacks : Registry GuardCb
  enterCallbacks : Registry GuardCb

variable {T : Type} [DecidableEq T] [ToString T]

/-- The TS constructor `constructor(startState: T)`. -/
def FiniteStateMachine.create (startState : T) : FiniteStateMachine T :=
  { currentState := startState
    startState := startState
    transitionFunctions := []
    onCallbacks := fun _ => none
    exitCallbacks := fun _ => none
    enterCallbacks := fun _ => none }

/-- TS private method `_validTransition(from, to)`. -/
def FiniteStateMachine.validTransition (m : FiniteStateMachine T) (src dst : T) : Bool :=
  m.transitionFunctions.any (fun tf => decide (tf.src = src) && decide (tf.dst = dst))

/-- TS method `addTransitions(fcn)`: for every pair of the cross product,
push an edge unless it is a self loop or already present.  The nested
`forEach` loops are folds, and the duplicate check runs against the list as
already extended by earlier pairs of the same call, exactly as in the
mutable source. -/
def FiniteStateMachine.addTransitions (m : FiniteStateMachine T) (fcn : Transitions T) :
    FiniteStateMachine T :=
  fcn.fromStates.foldl (fun macc src =>
    fcn.toStates.foldl (fun macc2 dst =>
      if src ≠ dst ∧ ¬(macc2.validTransition src dst = true) then
        { macc2 with transitionFunctions := macc2.transitionFunctions ++ [⟨src, dst⟩] }
      else macc2) macc) m

/-- TS method `on(state, callback)` (returns `this` for chaining). -/
def FiniteStateMachine.on (m : FiniteStateMachine T) (state : T) (callback : OnCb) :
    FiniteStateMachine T :=
  { m with onCallbacks := m.onCallbacks.push (toString state) callback }

/-- TS method `onEnter(state, callback)` (returns `this` for chaining). -/
def FiniteStateMachine.onEnter (m : FiniteStateMachine T) (state : T) (callback : GuardCb) :
    FiniteStateMachine T :=
  { m with enterCallbacks := m.enterCallbacks.push (toString state) callback }

/-- TS method `onExit(state, callback)` (returns `this` for chaining). -/
def FiniteStateMachine.onExit (m : FiniteStateMachine T) (state : T) (callback : GuardCb) :
    FiniteStateMachine T :=
  { m with exitCallbacks := m.exitCallbacks.push (toString state) callback }

/-- TS method `from(...states)`: builds a `Transitions` holding the from-states;
the engine is untouched (`toStates` is still unset in TS, modelled as `[]`). -/
def FiniteStateMachine.from' (m : FiniteStateMachine T) (states : List T) : Transitions T :=
  { fromStates := states, toStates := [] }

/-- TS method `Transitions.to(...states)`: records the to-states and submits the
builder to the owning engine's `addTransitions`.  The engine is the explicit
argument `m` (in TS it is the builder's live `fsm` reference). -/
def Transitions.to (tr : Transitions T) (m : FiniteStateMachine T) (states : List T) :
    FiniteStateMachine T :=
  m.addTransitions { tr with toStates := states }

/-- TS method `canGo(state)`. -/
def FiniteStateMachine.canGo (m : FiniteStateMachine T) (state : T) : Bool :=
  decide (m.currentState = state) || m.validTransition m.currentState state

/-- The TS guard fold
`callbacks.reduce((accum, next) => accum && next.call(this), true)`.
JavaScript `&&` evaluates `next.call(this)` only when `accum` is `true`, so a
callback is invoked (and its event recorded) only while no earlier callback
in the fold has returned `false`. -/
def guardFold (mk : Nat → Event) (cbs : List GuardCb) : Bool × List Event :=
  cbs.foldl (fun accum next =>
    if accum.1 then (next.ret, accum.2 ++ [mk next.id]) else (false, accum.2))
    (true, [])

/-- TS private method `_transitionTo(state)`: ensure the three registry keys,
fold the exit guards of the current state and the enter guards of the target,
and on success assign `currentState` and fire the on-commit callbacks of the
new current state.  Returns the machine and the trace of callback events. -/
def FiniteStateMachine.transitionTo (m : FiniteStateMachine T) (state : T) :
    FiniteStateMachine T × List Event :=
  let m1 : FiniteStateMachine T :=
    { m with exitCallbacks := m.exitCallbacks.ensure (toString m.currentState) }
  let m2 : FiniteStateMachine T :=
    { m1 with enterCallbacks := m1.enterCallbacks.ensure (toString state) }
  let m3 : FiniteStateMachine T :=
    { m2 with onCallbacks := m2.onCallbacks.ensure (toString state) }
  let exitFold := guardFold Event.exitGuard ((m3.exitCallbacks (toString m3.currentState)).getD [])
  let enterFold := guardFold Event.enterGuard ((m3.enterCallbacks (toString state)).getD [])
  if exitFold.1 && enterFold.1 then
    let m4 : FiniteStateMachine T := { m3 with currentState := state }
    (m4, exitFold.2 ++ enterFold.2 ++
      ((m4.onCallbacks (toString m4.currentState)).getD []).map (fun cb => Event.onCommit cb.id))
  else
    (m3, exitFold.2 ++ enterFold.2)

/-- TS method `go(state)`: throw when `canGo` fails (machine unchanged, no
callback runs), otherwise run `_transitionTo`.  Result: machine after the
call, callback trace, and the thrown message if any. -/
def FiniteStateMachine.go (m : FiniteStateMachine T) (state : T) :
    FiniteStateMachine T × List Event × Option String :=
  if ¬(m.canGo state = true) then
    (m, [], some ("Error no transition function exists from state "
      ++ toString m.currentState ++ " to " ++ toString state))
  else
    let r := m.transitionTo state
    (r.1, r.2, none)

/-- TS method `reset()`. -/
def FiniteStateMachine.reset (m : FiniteStateMachine T) : FiniteStateMachine T :=
  { m with currentState := m.startState }

/-- One call of a public mutating method of the engine, used to quantify over
"any sequence of prior operations". -/
inductive Op (T : Type) where
  | addTransitions (tr : Transitions T)
  | on (state : T) (cb : OnCb)
  | onEnter (state : T) (cb : GuardCb)
  | onExit (state : T) (cb : GuardCb)
  | go (state : T)
  | reset

/-- Apply one operation to the machine (the trace and error of `go` are
discarded: only the resulting machine matters for state evolution). -/
def applyOp (m : FiniteStateMachine T) : Op T → FiniteStateMachine T
  | .addTransitions tr => m.addTransitions tr
  | .on s cb => m.on s cb
  | .onEnter s cb => m.onEnter s cb
  | .onExit s cb => m.onExit s cb
  | .go s => (m.go s).1
  | .reset => m.reset

/-- The machine obtained by constructing with start state `s` and then
performing the given sequence of operations. -/
def runOps (s : T) (ops : List (Op T)) : FiniteStateMachine T :=
  ops.foldl applyOp (FiniteStateMachine.create s)

/-- The guard callbacks actually invoked by the short-circuiting AND fold:
every callback up to and including the first one that returns `false`. -/
def invokedGuards (cbs : List GuardCb) : List GuardCb :=
  cbs.takeWhile (fun cb => cb.ret) ++ (cbs.dropWhile (fun cb => cb.ret)).take 1

/-- Concrete state type used for witnesses, mirroring the spec scenario. -/
inductive S3 where
  | Idle
  | Running
  | Done
deriving DecidableEq, Repr

instance : ToString S3 where
  toString s := match s with
    | S3.Idle => "Idle"
    | S3.Running => "Running"
    | S3.Done => "Done"

/-- The invariant of the stored edge list: no self loop and no duplicate. -/
def EdgesOK (l : List (TransitionFunction T)) : Prop :=
  (∀ tf ∈ l, tf.src ≠ tf.dst) ∧ l.Nodup

def c4m : FiniteStateMachine S3 :=
  (((FiniteStateMachine.create S3.Idle).addTransitions
    ⟨[S3.Idle], [S3.Running]⟩).onExit S3.Idle ⟨10, false⟩).onExit S3.Idle ⟨11, true⟩

def c1m : FiniteStateMachine S3 :=
  (((((FiniteStateMachine.create S3.Idle).addTransitions
    ⟨[S3.Idle], [S3.Running]⟩).onExit S3.Idle ⟨10, true⟩).onEnter S3.Running ⟨20, true⟩).on
    S3.Running ⟨1⟩).on S3.Running ⟨2⟩

def c3m : FiniteStateMachine S3 :=
  ((((FiniteStateMachine.create S3.Idle).addTransitions
    ⟨[S3.Idle], [S3.Running]⟩).onExit S3.Idle ⟨10, false⟩).onEnter S3.Running ⟨20, true⟩).on
    S3.Running ⟨1⟩

theorem Registry.ensure_getD {α : Type} (reg : Registry α) (k k' : String) :
    ((reg.ensure k) k').getD [] = (reg k').getD [] := by
  unfold Registry.ensure
  cases h : reg k with
  | none =>
    by_cases hk : k' = k
    · subst hk; simp [h]
    · simp [hk]
  | some l => rfl

theorem guardFoldAux_false (mk : Nat → Event) (cbs : List GuardCb) (evts : List Event) :
    cbs.foldl (fun accum next =>
      if accum.1 then (next.ret, accum.2 ++ [mk next.id]) else (false, accum.2))
      (false, evts) = (false, evts) := by
  induction cbs with
  | nil => rfl
  | cons cb cbs ih => simpa using ih

theorem guardFoldAux_true (mk : Nat → Event) (cbs : List GuardCb) (evts : List Event) :
    cbs.foldl (fun accum next =>
      if accum.1 then (next.ret, accum.2 ++ [mk next.id]) else (false, accum.2))
      (true, evts)
    = (cbs.all (fun cb => cb.ret), evts ++ (invokedGuards cbs).map (fun cb => mk cb.id)) := by
  induction cbs generalizing evts with
  | nil => simp [invokedGuards]
  | cons cb cbs ih =>
    by_cases h : cb.ret
    · simp only [List.foldl_cons, if_pos True.intro, h, ih, invokedGuards,
        List.takeWhile_cons, List.dropWhile_cons, List.all_cons, Bool.true_and]
      simp [h, List.append_assoc]
    · have hb : cb.ret = false := by simpa using h
      simp only [List.foldl_cons, if_pos True.intro, hb, guardFoldAux_false, invokedGuards,
        List.takeWhile_cons, List.dropWhile_cons, List.all_cons]
      simp [hb]

theorem guardFold_eq (mk : Nat → Event) (cbs : List GuardCb) :
    guardFold mk cbs
      = (cbs.all (fun cb => cb.ret), (invokedGuards cbs).map (fun cb => mk cb.id)) := by
  unfold guardFold
  simpa using guardFoldAux_true mk cbs []

theorem invokedGuards_all_true (cbs : List GuardCb)
    (h : ∀ cb ∈ cbs, cb.ret = true) : invokedGuards cbs = cbs := by
  unfold invokedGuards
  rw [List.takeWhile_eq_self_iff.2 h]
  rw [List.dropWhile_eq_nil_iff.2 h]
  simp

theorem guardFold_all_true (mk : Nat → Event) (cbs : List GuardCb)
    (h : ∀ cb ∈ cbs, cb.ret = true) :
    guardFold mk cbs = (true, cbs.map (fun cb => mk cb.id)) := by
  rw [guardFold_eq, invokedGuards_all_true cbs h, List.all_eq_true.2 h]

theorem validTransition_iff_mem (m : FiniteStateMachine T) (src dst : T) :
    m.validTransition src dst = true
      ↔ (⟨src, dst⟩ : TransitionFunction T) ∈ m.transitionFunctions := by
  unfold FiniteStateMachine.validTransition
  rw [List.any_eq_true]
  constructor
  · rintro ⟨tf, hmem, htf⟩
    simp only [Bool.and_eq_true, decide_eq_true_eq] at htf
    obtain ⟨h1, h2⟩ := htf
    cases tf
    cases h1; cases h2
    exact hmem
  · intro hmem
    exact ⟨⟨src, dst⟩, hmem, by simp⟩

theorem transitionTo_spec (m : FiniteStateMachine T) (s : T) :
    (m.transitionTo s).1.currentState
      = (if (guardFold Event.exitGuard ((m.exitCallbacks (toString m.currentState)).getD [])).1
            && (guardFold Event.enterGuard ((m.enterCallbacks (toString s)).getD [])).1
         then s else m.currentState) ∧
    (m.transitionTo s).2
      = (guardFold Event.exitGuard ((m.exitCallbacks (toString m.currentState)).getD [])).2
        ++ (guardFold Event.enterGuard ((m.enterCallbacks (toString s)).getD [])).2
        ++ (if (guardFold Event.exitGuard ((m.exitCallbacks (toString m.currentState)).getD [])).1
              && (guardFold Event.enterGuard ((m.enterCallbacks (toString s)).getD [])).1
            then ((m.onCallbacks (toString s)).getD []).map (fun cb => Event.onCommit cb.id)
            else []) ∧
    (m.transitionTo s).1.transitionFunctions = m.transitionFunctions ∧
    (m.transitionTo s).1.startState = m.startState := by
  unfold FiniteStateMachine.transitionTo
  simp only [Registry.ensure_getD]
  split
  · simp_all
  · simp_all

theorem foldl_preserves {A B : Type _} (P : A → Prop) (f : A → B → A)
    (hstep : ∀ a b, P a → P (f a b)) :
    ∀ (l : List B) (a : A), P a → P (l.foldl f a) := by
  intro l
  induction l with
  | nil => intro a ha; exact ha
  | cons x xs ih => intro a ha; exact ih _ (hstep a x ha)

theorem addTransitions_edgesOK (m : FiniteStateMachine T) (tr : Transitions T)
    (h : EdgesOK m.transitionFunctions) :
    EdgesOK (m.addTransitions tr).transitionFunctions := by
  unfold FiniteStateMachine.addTransitions
  refine foldl_preserves
    (fun x : FiniteStateMachine T => EdgesOK x.transitionFunctions) _ ?_ _ _ h
  intro a src ha
  refine foldl_preserves
    (fun x : FiniteStateMachine T => EdgesOK x.transitionFunctions) _ ?_ _ _ ha
  intro a2 dst ha2
  split
  · rename_i hcond
    obtain ⟨hne, hnv⟩ := hcond
    have hnm : (⟨src, dst⟩ : TransitionFunction T) ∉ a2.transitionFunctions := by
      intro hmem
      exact hnv ((validTransition_iff_mem a2 src dst).2 hmem)
    obtain ⟨hloop, hnd⟩ := ha2
    constructor
    · intro tf htf
      rcases List.mem_append.1 htf with h1 | h1
      · exact hloop tf h1
      · simp only [List.mem_singleton] at h1
        subst h1
        exact hne
    · rw [List.nodup_append]
      refine ⟨hnd, List.nodup_singleton _, ?_⟩
      intro x hx hx'
      simp only [List.mem_singleton] at hx'
      subst hx'
      exact hnm hx
  · exact ha2

theorem applyOp_startState (m : FiniteStateMachine T) (op : Op T) :
    (applyOp m op).startState = m.startState :=
  match op with
  | .addTransitions tr => by
    show (m.addTransitions tr).startState = m.startState
    unfold FiniteStateMachine.addTransitions
    refine foldl_preserves
      (fun x : FiniteStateMachine T => x.startState = m.startState) _ ?_ _ _ rfl
    intro a src ha
    refine foldl_preserves
      (fun x : FiniteStateMachine T => x.startState = m.startState) _ ?_ _ _ ha
    intro a2 dst ha2
    split
    · exact ha2
    · exact ha2
  | .on s cb => rfl
  | .onEnter s cb => rfl
  | .onExit s cb => rfl
  | .go s => by
    show (m.go s).1.startState = m.startState
    unfold FiniteStateMachine.go
    split
    · rfl
    · exact (transitionTo_spec m s).2.2.2
  | .reset => rfl

theorem applyOp_edgesOK (m : FiniteStateMachine T) (op : Op T)
    (h : EdgesOK m.transitionFunctions) :
    EdgesOK (applyOp m op).transitionFunctions :=
  match op with
  | .addTransitions tr => addTransitions_edgesOK m tr h
  | .on s cb => h
  | .onEnter s cb => h
  | .onExit s cb => h
  | .go s => by
    show EdgesOK (m.go s).1.transitionFunctions
    unfold FiniteStateMachine.go
    split
    · exact h
    · rw [(transitionTo_spec m s).2.2.1]
      exact h
  | .reset => h

theorem runOps_startState (s : T) (ops : List (Op T)) :
    (runOps s ops).startState = s := by
  unfold runOps
  refine foldl_preserves (fun x : FiniteStateMachine T => x.startState = s) _ ?_ _ _ rfl
  intro a op ha
  rw [applyOp_startState a op]
  exact ha

theorem runOps_edgesOK (s : T) (ops : List (Op T)) :
    EdgesOK (runOps s ops).transitionFunctions := by
  unfold runOps
  refine foldl_preserves
    (fun x : FiniteStateMachine T => EdgesOK x.transitionFunctions) _ ?_ _ _ ?_
  · intro a op ha
    exact applyOp_edgesOK a op ha
  · exact ⟨by simp [FiniteStateMachine.create], by simp [FiniteStateMachine.create]⟩

theorem mem_addTransitions_single (m : FiniteStateMachine T) (a b : T) (hab : a ≠ b) :
    (⟨a, b⟩ : TransitionFunction T) ∈ (m.addTransitions ⟨[a], [b]⟩).transitionFunctions := by
  simp only [FiniteStateMachine.addTransitions, List.foldl_cons, List.foldl_nil]
  split
  · simp
  · rename_i h
    push_neg at h
    exact (validTransition_iff_mem m a b).1 (h hab)

theorem addTransitions_single_of_mem (m : FiniteStateMachine T) (a b : T)
    (hmem : (⟨a, b⟩ : TransitionFunction T) ∈ m.transitionFunctions) :
    m.addTransitions ⟨[a], [b]⟩ = m := by
  simp only [FiniteStateMachine.addTransitions, List.foldl_cons, List.foldl_nil]
  rw [if_neg]
  rintro ⟨-, hnv⟩
  exact hnv ((validTransition_iff_mem m a b).2 hmem)

theorem double_add_count (m : FiniteStateMachine T) (a b : T) (hab : a ≠ b)
    (hok : EdgesOK m.transitionFunctions) :
    (((m.addTransitions ⟨[a], [b]⟩).addTransitions
        ⟨[a], [b]⟩).transitionFunctions).count ⟨a, b⟩ = 1 := by
  have h1 : (⟨a, b⟩ : TransitionFunction T) ∈ (m.addTransitions ⟨[a], [b]⟩).transitionFunctions :=
    mem_addTransitions_single m a b hab
  have hok1 : EdgesOK (m.addTransitions ⟨[a], [b]⟩).transitionFunctions :=
    addTransitions_edgesOK m _ hok
  rw [addTransitions_single_of_mem _ a b h1]
  exact List.count_eq_one_of_mem hok1.2 h1

theorem not_canGo_iff (m : FiniteStateMachine T) (X : T) :
    ¬(m.canGo X = true) ↔ (X ≠ m.currentState ∧
      (⟨m.currentState, X⟩ : TransitionFunction T) ∉ m.transitionFunctions) := by
  unfold FiniteStateMachine.canGo
  rw [Bool.or_eq_true, decide_eq_true_eq, validTransition_iff_mem]
  constructor
  · intro h
    exact ⟨fun he => h (Or.inl he.symm), fun hm => h (Or.inr hm)⟩
  · rintro ⟨h1, h2⟩ (h | h)
    · exact h1 h.symm
    · exact h2 h

theorem filter_isOnCommit_exitMap (cbs : List GuardCb) :
    (cbs.map (fun cb => Event.exitGuard cb.id)).filter Event.isOnCommit = [] := by
  induction cbs with
  | nil => rfl
  | cons cb cbs ih => simp [Event.isOnCommit, ih]

theorem filter_isOnCommit_enterMap (cbs : List GuardCb) :
    (cbs.map (fun cb => Event.enterGuard cb.id)).filter Event.isOnCommit = [] := by
  induction cbs with
  | nil => rfl
  | cons cb cbs ih => simp [Event.isOnCommit, ih]

theorem filter_isOnCommit_onMap (cbs : List OnCb) :
    (cbs.map (fun cb => Event.onCommit cb.id)).filter Event.isOnCommit
      = cbs.map (fun cb => Event.onCommit cb.id) := by
  induction cbs with
  | nil => rfl
  | cons cb cbs ih => simp [Event.isOnCommit, ih]

/-- C5: `canGo(S)` is true iff `S` equals `currentState` or an edge
`(currentState, S)` is registered; in particular `canGo(currentState)` is true
even with no registered edges.  (`canGo` is a pure function of the machine in
this embedding, so it mutates no engine state by construction.) -/
theorem canGo_iff (m : FiniteStateMachine T) (s : T) :
    (m.canGo s = true ↔ (s = m.currentState ∨
      (⟨m.currentState, s⟩ : TransitionFunction T) ∈ m.transitionFunctions)) ∧
    m.canGo m.currentState = true := by
  constructor
  · unfold FiniteStateMachine.canGo
    rw [Bool.or_eq_true, decide_eq_true_eq, validTransition_iff_mem]
    constructor
    · rintro (h | h)
      · exact Or.inl h.symm
      · exact Or.inr h
    · rintro (h | h)
      · exact Or.inl h.symm
      · exact Or.inr h
  · unfold FiniteStateMachine.canGo
    simp

/-- C2: `go(X)` raises an error iff `X ≠ currentState` and no edge
`(currentState, X)` is registered; when it raises, the message names the
current state and the target, the machine is unchanged and no callback runs. -/
theorem go_structural_error (m : FiniteStateMachine T) (X : T) :
    ((m.go X).2.2 ≠ none ↔ (X ≠ m.currentState ∧
      (⟨m.currentState, X⟩ : TransitionFunction T) ∉ m.transitionFunctions)) ∧
    ((m.go X).2.2 ≠ none →
      (m.go X).2.2 = some ("Error no transition function exists from state "
        ++ toString m.currentState ++ " to " ++ toString X) ∧
      (m.go X).1 = m ∧ (m.go X).2.1 = []) := by
  unfold FiniteStateMachine.go
  split
  · rename_i hc
    exact ⟨⟨fun _ => (not_canGo_iff m X).1 hc, fun _ => by simp⟩, fun _ => ⟨rfl, rfl, rfl⟩⟩
  · rename_i hc
    have hcan : m.canGo X = true := not_not.1 hc
    refine ⟨⟨fun hne => absurd rfl hne, fun hx => ?_⟩, fun hne => absurd rfl hne⟩
    exact absurd hcan ((not_canGo_iff m X).2 hx)

/-- C1: with a registered edge `(A, B)`, `A ≠ B`, current state `A`, and every
exit guard of `A` and enter guard of `B` absent or returning true, `go(B)`
commits: no error, `currentState` becomes `B`, and the on-commit callbacks
registered under `B`'s key fire in registration order, exactly once each. -/
theorem go_commit_spec (m : FiniteStateMachine T) (B : T)
    (hedge : (⟨m.currentState, B⟩ : TransitionFunction T) ∈ m.transitionFunctions)
    (hAB : m.currentState ≠ B)
    (hexit : ∀ cb ∈ (m.exitCallbacks (toString m.currentState)).getD [], cb.ret = true)
    (henter : ∀ cb ∈ (m.enterCallbacks (toString B)).getD [], cb.ret = true) :
    (m.go B).2.2 = none ∧
    (m.go B).1.currentState = B ∧
    (m.go B).2.1.filter Event.isOnCommit
      = ((m.onCallbacks (toString B)).getD []).map (fun cb => Event.onCommit cb.id) := by
  have hcan : m.canGo B = true := by
    unfold FiniteStateMachine.canGo
    rw [Bool.or_eq_true, validTransition_iff_mem]
    exact Or.inr hedge
  have hspec := transitionTo_spec m B
  rw [guardFold_all_true Event.exitGuard _ hexit, guardFold_all_true Event.enterGuard _ henter]
    at hspec
  unfold FiniteStateMachine.go
  rw [if_neg (not_not.2 hcan)]
  refine ⟨rfl, ?_, ?_⟩
  · show (m.transitionTo B).1.currentState = B
    rw [hspec.1]
    simp
  · show (m.transitionTo B).2.filter Event.isOnCommit = _
    rw [hspec.2.1]
    simp only [Bool.and_self, if_pos]
    rw [List.filter_append, List.filter_append, filter_isOnCommit_exitMap,
      filter_isOnCommit_enterMap, filter_isOnCommit_onMap]
    simp

/-- C3: with a registered edge `(currentState, B)`, if the exit-guard fold of
the current state or the enter-guard fold of `B` yields false, `go(B)` returns
without error, leaves `currentState` unchanged and fires no on-commit callback. -/
theorem go_guard_reject (m : FiniteStateMachine T) (B : T)
    (hedge : (⟨m.currentState, B⟩ : TransitionFunction T) ∈ m.transitionFunctions)
    (hfail :
      (guardFold Event.exitGuard ((m.exitCallbacks (toString m.currentState)).getD [])).1 = false
      ∨ (guardFold Event.enterGuard ((m.enterCallbacks (toString B)).getD [])).1 = false) :
    (m.go B).2.2 = none ∧
    (m.go B).1.currentState = m.currentState ∧
    (m.go B).2.1.filter Event.isOnCommit = [] := by
  have hcan : m.canGo B = true := by
    unfold FiniteStateMachine.canGo
    rw [Bool.or_eq_true, validTransition_iff_mem]
    exact Or.inr hedge
  have hand :
      ((guardFold Event.exitGuard ((m.exitCallbacks (toString m.currentState)).getD [])).1
        && (guardFold Event.enterGuard ((m.enterCallbacks (toString B)).getD [])).1) = false := by
    rcases hfail with h | h
    · rw [h]; rfl
    · rw [h]; simp
  have hspec := transitionTo_spec m B
  rw [hand] at hspec
  unfold FiniteStateMachine.go
  rw [if_neg (not_not.2 hcan)]
  refine ⟨rfl, ?_, ?_⟩
  · show (m.transitionTo B).1.currentState = m.currentState
    rw [hspec.1]
    simp
  · show (m.transitionTo B).2.filter Event.isOnCommit = []
    rw [hspec.2.1]
    rw [guardFold_eq, guardFold_eq]
    simp [List.filter_append, filter_isOnCommit_exitMap, filter_isOnCommit_enterMap]

/-- C4 counterexample: exit guard `11` is registered for the current state
`Idle` after guard `10`, guard `10` returns false, and during `go(Running)`
guard `11` is never invoked — the AND fold short-circuits, refuting the claim
that every exit-guard callback executes after an earlier one returned false. -/
theorem guard_no_shortcircuit_cex :
    ((⟨11, true⟩ : GuardCb) ∈ (c4m.exitCallbacks (toString S3.Idle)).getD []) ∧
    c4m.currentState = S3.Idle ∧
    (c4m.go S3.Running).2.1 = [Event.exitGuard 10] ∧
    Event.exitGuard 11 ∉ (c4m.go S3.Running).2.1 := by
  decide

/-- C4 (amended): during a transition the exit guards of the current state and
the enter guards of the target are each folded with AND in registration order
starting from true, but the fold short-circuits: a guard callback is invoked
iff every earlier callback in its fold returned true, so the callbacks invoked
are exactly those up to and including the first one returning false, and the
fold yields the conjunction of all registered returns. -/
theorem guard_fold_shortcircuit (m : FiniteStateMachine T) (s : T) :
    (m.transitionTo s).2
      = (invokedGuards ((m.exitCallbacks (toString m.currentState)).getD [])).map
          (fun cb => Event.exitGuard cb.id)
        ++ (invokedGuards ((m.enterCallbacks (toString s)).getD [])).map
          (fun cb => Event.enterGuard cb.id)
        ++ (if (((m.exitCallbacks (toString m.currentState)).getD []).all (fun cb => cb.ret)
              && ((m.enterCallbacks (toString s)).getD []).all (fun cb => cb.ret)) = true
            then ((m.onCallbacks (toString s)).getD []).map (fun cb => Event.onCommit cb.id)
            else []) ∧
    (m.transitionTo s).1.currentState
      = (if (((m.exitCallbacks (toString m.currentState)).getD []).all (fun cb => cb.ret)
            && ((m.enterCallbacks (toString s)).getD []).all (fun cb => cb.ret)) = true
         then s else m.currentState) := by
  have hspec := transitionTo_spec m s
  rw [guardFold_eq, guardFold_eq] at hspec
  simp only at hspec
  exact ⟨hspec.2.1, hspec.1⟩

/-- C6: after any operation sequence the edge list contains no self loop and
no duplicate pair, and registering the same pair `(a, b)` twice stores exactly
one `(a, b)` edge. -/
theorem edges_invariant (s : T) (ops : List (Op T)) (a b : T) (hab : a ≠ b) :
    (∀ tf ∈ (runOps s ops).transitionFunctions, tf.src ≠ tf.dst) ∧
    (runOps s ops).transitionFunctions.Nodup ∧
    ((((runOps s ops).addTransitions ⟨[a], [b]⟩).addTransitions
        ⟨[a], [b]⟩).transitionFunctions).count ⟨a, b⟩ = 1 :=
  ⟨(runOps_edgesOK s ops).1, (runOps_edgesOK s ops).2,
    double_add_count _ a b hab (runOps_edgesOK s ops)⟩

/-- C7: `go(currentState)` never raises the structural error, still folds the
exit guards of the current state and the enter guards of that same state, and
when both folds yield true fires that state's on-commit callbacks; in every
case the state afterwards is the (unchanged) current state. -/
theorem go_self_transition (m : FiniteStateMachine T) :
    (m.go m.currentState).2.2 = none ∧
    (m.go m.currentState).2.1
      = (guardFold Event.exitGuard ((m.exitCallbacks (toString m.currentState)).getD [])).2
        ++ (guardFold Event.enterGuard ((m.enterCallbacks (toString m.currentState)).getD [])).2
        ++ (if (guardFold Event.exitGuard
                ((m.exitCallbacks (toString m.currentState)).getD [])).1
              && (guardFold Event.enterGuard
                ((m.enterCallbacks (toString m.currentState)).getD [])).1
            then ((m.onCallbacks (toString m.currentState)).getD []).map
              (fun cb => Event.onCommit cb.id)
            else []) ∧
    (m.go m.currentState).1.currentState = m.currentState := by
  have hcan : m.canGo m.currentState = true := by
    unfold FiniteStateMachine.canGo
    simp
  unfold FiniteStateMachine.go
  rw [if_neg (not_not.2 hcan)]
  refine ⟨rfl, ?_, ?_⟩
  · exact (transitionTo_spec m m.currentState).2.1
  · show (m.transitionTo m.currentState).1.currentState = m.currentState
    rw [(transitionTo_spec m m.currentState).1]
    split
    · rfl
    · rfl

/-- C8: after any operation sequence, `reset()` sets `currentState` back to
the construction-time start state; `reset` touches nothing else and, by its
type, invokes no callback. -/
theorem reset_spec (s : T) (ops : List (Op T)) :
    ((runOps s ops).reset).currentState = s ∧
    ((runOps s ops).reset).startState = s := by
  have h := runOps_startState s ops
  exact ⟨h, h⟩

/-- C9: `from(states...)` only records the from-states and leaves the engine
untouched; `to(states...)` submits exactly the builder's cross product to
`addTransitions`; an empty from- or to-list adds no edge and raises no error. -/
theorem builder_cross_product (m : FiniteStateMachine T) (fs ts : List T) :
    m.from' fs = { fromStates := fs, toStates := [] } ∧
    (m.from' fs).to m ts = m.addTransitions { fromStates := fs, toStates := ts } ∧
    ((m.from' []).to m ts).transitionFunctions = m.transitionFunctions ∧
    ((m.from' fs).to m []).transitionFunctions = m.transitionFunctions := by
  refine ⟨rfl, rfl, rfl, ?_⟩
  show (m.addTransitions ⟨fs, []⟩).transitionFunctions = m.transitionFunctions
  unfold FiniteStateMachine.addTransitions
  refine foldl_preserves
    (fun x : FiniteStateMachine T => x.transitionFunctions = m.transitionFunctions) _ ?_ _ _ rfl
  intro a src ha
  exact ha

/-- C10: the enter-guard fold of the target is always evaluated during a
transition, its callbacks invoked exactly as usual even when the exit-guard
fold already yielded false; the commit decision is taken after both folds and
the transition commits iff both yielded true. -/
theorem enter_fold_always_runs (m : FiniteStateMachine T) (s : T) :
    (m.transitionTo s).2
      = (guardFold Event.exitGuard ((m.exitCallbacks (toString m.currentState)).getD [])).2
        ++ (guardFold Event.enterGuard ((m.enterCallbacks (toString s)).getD [])).2
        ++ (if (guardFold Event.exitGuard ((m.exitCallbacks (toString m.currentState)).getD [])).1
              && (guardFold Event.enterGuard ((m.enterCallbacks (toString s)).getD [])).1
            then ((m.onCallbacks (toString s)).getD []).map (fun cb => Event.onCommit cb.id)
            else []) ∧
    (m.transitionTo s).1.currentState
      = (if (guardFold Event.exitGuard ((m.exitCallbacks (toString m.currentState)).getD [])).1
            && (guardFold Event.enterGuard ((m.enterCallbacks (toString s)).getD [])).1
         then s else m.currentState) :=
  ⟨(transitionTo_spec m s).2.1, (transitionTo_spec m s).1⟩

/-- Witness for C1 at a concrete machine with true guards and two on-commit
callbacks for `Running`. -/
theorem go_commit_spec_witness :
    ((⟨S3.Idle, S3.Running⟩ : TransitionFunction S3) ∈ c1m.transitionFunctions) ∧
    (c1m.go S3.Running).2.2 = none ∧
    (c1m.go S3.Running).1.currentState = S3.Running ∧
    (c1m.go S3.Running).2.1.filter Event.isOnCommit
      = ((c1m.onCallbacks (toString S3.Running)).getD []).map (fun cb => Event.onCommit cb.id) :=
  ⟨by decide, go_commit_spec c1m S3.Running (by decide) (by decide) (by decide) (by decide)⟩

/-- Witness for C2 at a concrete machine with no edges. -/
theorem go_structural_error_witness :
    ((FiniteStateMachine.create S3.Idle).go S3.Running).2.2 ≠ none ∧
    (((FiniteStateMachine.create S3.Idle).go S3.Running).2.2
        = some ("Error no transition function exists from state "
          ++ toString (FiniteStateMachine.create S3.Idle).currentState
          ++ " to " ++ toString S3.Running) ∧
      ((FiniteStateMachine.create S3.Idle).go S3.Running).1 = FiniteStateMachine.create S3.Idle ∧
      ((FiniteStateMachine.create S3.Idle).go S3.Running).2.1 = []) := by
  have h := go_structural_error (FiniteStateMachine.create S3.Idle) S3.Running
  have hne : ((FiniteStateMachine.create S3.Idle).go S3.Running).2.2 ≠ none := by decide
  exact ⟨hne, h.2 hne⟩

/-- Witness for C3 at a concrete machine whose exit guard returns false. -/
theorem go_guard_reject_witness :
    (guardFold Event.exitGuard
      ((c3m.exitCallbacks (toString c3m.currentState)).getD [])).1 = false ∧
    (c3m.go S3.Running).2.2 = none ∧
    (c3m.go S3.Running).1.currentState = c3m.currentState ∧
    (c3m.go S3.Running).2.1.filter Event.isOnCommit = [] :=
  ⟨by decide, go_guard_reject c3m S3.Running (by decide) (Or.inl (by decide))⟩

/-- Witness for C6 at the empty operation sequence and the pair (Idle, Running). -/
theorem edges_invariant_witness :
    S3.Idle ≠ S3.Running ∧
    ((((runOps S3.Idle ([] : List (Op S3))).addTransitions
        ⟨[S3.Idle], [S3.Running]⟩).addTransitions
        ⟨[S3.Idle], [S3.Running]⟩).transitionFunctions).count ⟨S3.Idle, S3.Running⟩ = 1 :=
  ⟨by decide, (edges_invariant S3.Idle [] S3.Idle S3.Running (by decide)).2.2⟩
